import Mathlib

/-!
Verification of the task-pool subsystem of `src/libdialog/dialog/task_pool.h`:
a blocking FIFO task queue (`task_queue`), a worker thread (`task_worker`)
and a pool façade (`task_pool`).

The C++ state is embedded shallowly:

* `task_queue` becomes a structure holding the two validity members
  (`valid_ : atomic::type<bool>` and the separate, never-mentioned
  `std::atomic_bool valid { true }`) and the pending FIFO sequence
  `queue_ : std::queue<function_t>` as a Lean `List` (head = front).
* The mutex protects every operation in the C++ code, so each operation is
  a pure function from queue state to queue state; the condition-variable
  wait in `dequeue` is modelled by a `blocked` outcome: `dequeue` returns
  `blocked` exactly when the wait predicate
  `!queue_.empty() || !valid_` is false, i.e. when the C++ call would
  still be sleeping on `condition_.wait`.
* `condition_.notify_one` / `notify_all` have no effect on the queue
  state itself; a woken waiter re-evaluates the predicate against the
  state, which is exactly what the pure `dequeue` function computes.
-/

/-- Outcome of one call to `task_queue::dequeue(function_t& out)`.
`blocked` means the condition-variable predicate is false, so the C++ call
has not returned yet; `closed` is the `return false` path (queue
invalidated, nothing consumed); `task t` is the `return true` path with
`t` written to the out parameter. -/
inductive DequeueResult (α : Type) where
  | blocked : DequeueResult α
  | closed : DequeueResult α
  | task (t : α) : DequeueResult α
deriving DecidableEq

/-- State of `class task_queue`.  `valid_` is the member
`atomic::type<bool> valid_` (initialised `true` in the constructor),
`valid` is the member `std::atomic_bool valid { true }`, and `queue_` is
`std::queue<function_t> queue_` with the list head as the queue front. -/
structure task_queue (α : Type) where
  valid_ : Bool
  valid : Bool
  queue_ : List α
deriving DecidableEq

namespace task_queue

variable {α : Type}

/-- `task_queue() : valid_(true)` together with the in-class initialiser
`std::atomic_bool valid { true }` and the default-empty `std::queue`. -/
def init : task_queue α := ⟨true, true, []⟩

/-- `invalidate()`: under the lock, `valid_ = false; condition_.notify_all();`.
The notification does not change the state. -/
def invalidate (q : task_queue α) : task_queue α :=
  { q with valid_ := false }

/-- The predicate of `condition_.wait(lock, [this](){return !queue_.empty() || !valid_;})`. -/
def wait_pred (q : task_queue α) : Bool :=
  !q.queue_.isEmpty || !q.valid_

/-- `bool dequeue(function_t& out)`: wait until the predicate holds
(`blocked` while it does not); then `if (!valid_) return false;` else pop
the front and return it. -/
def dequeue (q : task_queue α) : DequeueResult α × task_queue α :=
  if wait_pred q then
    if !q.valid_ then (.closed, q)
    else
      match q.queue_ with
      | [] => (.blocked, q)
      | t :: rest => (.task t, { q with queue_ := rest })
  else (.blocked, q)

/-- `enqueue(F&& f, ARGS&&... args)`: wraps the callable into a
`std::packaged_task`, takes its future `res = task->get_future()`, pushes
the wrapper `[task](){(*task)();}` at the back of `queue_` under the lock,
notifies one waiter (no state effect) and returns `res`.  The returned
first component stands for the future handle, which is tied to the unit
just appended. -/
def enqueue (q : task_queue α) (t : α) : α × task_queue α :=
  (t, { q with queue_ := q.queue_ ++ [t] })

/-- `bool empty() const`: `return queue_.empty();` under the lock. -/
def empty (q : task_queue α) : Bool :=
  q.queue_.isEmpty

/-- `void clear()`: under the lock, `while (!queue_.empty()) queue_.pop();`
then `condition_.notify_all()` (no state effect). -/
def clear (q : task_queue α) : task_queue α :=
  { q with queue_ := [] }

/-- `bool is_valid() const`: `return valid_;` under the lock. -/
def is_valid (q : task_queue α) : Bool :=
  q.valid_

/-- The same queue state with the vestigial `std::atomic_bool valid`
member replaced; used to show no operation reads that member. -/
def set_valid (q : task_queue α) (b : Bool) : task_queue α :=
  { q with valid := b }

end task_queue

/-- The public operations of `task_queue`, used to quantify over every
sequence of calls a client may issue. -/
inductive queue_op (α : Type) where
  | enqueue (t : α) : queue_op α
  | dequeue : queue_op α
  | clear : queue_op α
  | invalidate : queue_op α
  | empty : queue_op α
  | is_valid : queue_op α
deriving DecidableEq

/-- What each operation hands back to its caller. -/
inductive queue_out (α : Type) where
  | handle (t : α) : queue_out α
  | deq (r : DequeueResult α) : queue_out α
  | bool (b : Bool) : queue_out α
  | unit : queue_out α
deriving DecidableEq

namespace task_queue

variable {α : Type}

/-- One call of the named operation on the queue: its return value and the
successor state. -/
def step (q : task_queue α) : queue_op α → queue_out α × task_queue α
  | .enqueue t => (.handle (q.enqueue t).1, (q.enqueue t).2)
  | .dequeue => (.deq q.dequeue.1, q.dequeue.2)
  | .clear => (.unit, q.clear)
  | .invalidate => (.unit, q.invalidate)
  | .empty => (.bool q.empty, q)
  | .is_valid => (.bool q.is_valid, q)

/-- Run a sequence of operations, returning the final state. -/
def run (q : task_queue α) : List (queue_op α) → task_queue α
  | [] => q
  | op :: ops => run (q.step op).2 ops

/-- The units handed out by the `dequeue` calls of a run, in order. -/
def dequeued (q : task_queue α) : List (queue_op α) → List α
  | [] => []
  | op :: ops =>
    (match (q.step op).1 with
     | .deq (.task t) => [t]
     | _ => []) ++ dequeued (q.step op).2 ops

/-- The units an operation sequence enqueues, in order. -/
def ops_enqueued : List (queue_op α) → List α
  | [] => []
  | .enqueue t :: ops => t :: ops_enqueued ops
  | _ :: ops => ops_enqueued ops

/-- Enqueue a list of units in order (a sequence of `enqueue` calls). -/
def enqueue_all : task_queue α → List α → task_queue α
  | q, [] => q
  | q, t :: ts => enqueue_all (q.enqueue t).2 ts

/-- Dequeue `n` times, collecting the units returned; stop if a call does
not yield a unit. -/
def dequeue_n : task_queue α → Nat → List α
  | _, 0 => []
  | q, n + 1 =>
    match q.dequeue with
    | (.task t, q') => t :: dequeue_n q' n
    | _ => []

end task_queue

/-- A queued unit as the worker observes it: the identity of the future
returned at submission, and the outcome of invoking the caller's callable
(`Except.ok v` for a normal return, `Except.error e` for a thrown
exception whose description `e.what()` is `e`). -/
structure task_entry where
  id : Nat
  run : Except String Nat

/-- The externally observable effects of a worker: the futures fulfilled
so far (id paired with the stored value-or-exception), in order, and the
messages emitted to the diagnostic sink (`LOG_ERROR`), in order. -/
structure worker_obs where
  resolved : List (Nat × Except String Nat)
  log : List String

/-- Executing the queued closure `[task]() { (*task)(); }` built by
`task_queue::enqueue`: `std::packaged_task::operator()` invokes the
stored callable and stores its outcome — the returned value or the thrown
exception — in the future's shared state, making the future ready; a
thrown exception is captured in the shared state and does not propagate
out of `(*task)()`.  Returns the updated list of fulfilled futures and
the exception escaping `task()` (`none`, per `std::packaged_task`
semantics). -/
def run_packaged (t : task_entry) (res : List (Nat × Except String Nat)) :
    List (Nat × Except String Nat) × Option String :=
  (res ++ [(t.id, t.run)], none)

/-- One iteration of the loop body in `task_worker::start`:
`if (queue_.dequeue(task)) { try { task(); } catch (std::exception& e)
{ LOG_ERROR << "Could not execute task: " << e.what(); ... } }`.
The `some` branch is the `catch` block, reached only by an exception that
escapes `task()`. -/
def worker_iter (q : task_queue task_entry) (w : worker_obs) :
    task_queue task_entry × worker_obs :=
  match q.dequeue with
  | (.task t, q') =>
    match run_packaged t w.resolved with
    | (res, some msg) =>
      (q', { resolved := res, log := w.log ++ ["Could not execute task: " ++ msg] })
    | (res, none) => (q', { w with resolved := res })
  | (_, q') => (q', w)

/-- `n` iterations of the worker loop `while (!atomic::load(&stop_)) ...`
in `task_worker::start`, with `stop_` remaining `false` throughout. -/
def worker_run : Nat → task_queue task_entry → worker_obs → task_queue task_entry × worker_obs
  | 0, q, w => (q, w)
  | n + 1, q, w => worker_run n (worker_iter q w).1 (worker_iter q w).2

/-- The two kinds of externally visible steps performed by `~task_pool`:
`queue_.invalidate();`, and `delete workers_[i];`, whose destructor
`~task_worker` runs `stop()` — sets the worker's stop flag, joins its
thread — and then releases the worker's resources. -/
inductive teardown_event where
  | invalidate_queue : teardown_event
  | stop_worker (i : Nat) : teardown_event
deriving DecidableEq

/-- The sequence of steps executed by `~task_pool()` over `n` workers:
`queue_.invalidate()` first, then `delete workers_[0]`, ...,
`delete workers_[n-1]` in order. -/
def pool_teardown (n : Nat) : List teardown_event :=
  .invalidate_queue :: (List.range n).map .stop_worker

/-- The effect of one teardown step on the shared queue: invalidation
invalidates it; stopping, joining and deleting a worker does not touch
the queue. -/
def teardown_apply {α : Type} (q : task_queue α) : teardown_event → task_queue α
  | .invalidate_queue => q.invalidate
  | .stop_worker _ => q

/-- Each teardown step paired with the queue state at the moment the step
begins. -/
def teardown_trace {α : Type} (q : task_queue α) :
    List teardown_event → List (task_queue α × teardown_event)
  | [] => []
  | e :: es => (q, e) :: teardown_trace (teardown_apply q e) es

namespace task_queue

variable {α : Type}

theorem wait_pred_of_invalid (q : task_queue α) (h : q.valid_ = false) :
    wait_pred q = true := by
  simp [wait_pred, h]

theorem dequeue_of_invalid (q : task_queue α) (h : q.valid_ = false) :
    q.dequeue = (.closed, q) := by
  simp [dequeue, wait_pred, h]

theorem step_valid_underscore_mono (q : task_queue α) (op : queue_op α)
    (h : q.valid_ = false) : (q.step op).2.valid_ = false := by
  cases op <;>
    simp_all [step, enqueue, dequeue, clear, invalidate, wait_pred]

theorem run_valid_underscore_mono (q : task_queue α) (ops : List (queue_op α))
    (h : q.valid_ = false) : (run q ops).valid_ = false := by
  induction ops generalizing q with
  | nil => exact h
  | cons op ops ih => exact ih _ (step_valid_underscore_mono q op h)

theorem dequeue_head (q : task_queue α) (t : α) (rest : List α)
    (hv : q.valid_ = true) (hq : q.queue_ = t :: rest) :
    q.dequeue = (.task t, { q with queue_ := rest }) := by
  simp [dequeue, wait_pred, hv, hq]

theorem enqueue_all_queue_eq (q : task_queue α) (ts : List α) :
    (enqueue_all q ts).queue_ = q.queue_ ++ ts := by
  induction ts generalizing q with
  | nil => simp [enqueue_all]
  | cons t ts ih =>
    show (enqueue_all (q.enqueue t).2 ts).queue_ = _
    rw [ih]
    simp [enqueue]

theorem enqueue_all_valid_underscore_eq (q : task_queue α) (ts : List α) :
    (enqueue_all q ts).valid_ = q.valid_ := by
  induction ts generalizing q with
  | nil => rfl
  | cons t ts ih =>
    show (enqueue_all (q.enqueue t).2 ts).valid_ = _
    rw [ih]
    rfl

theorem dequeue_n_fifo (l : List α) (q : task_queue α)
    (hv : q.valid_ = true) (hq : q.queue_ = l) :
    dequeue_n q l.length = l := by
  induction l generalizing q with
  | nil => rfl
  | cons t rest ih =>
    rw [List.length_cons, dequeue_n, dequeue_head q t rest hv hq]
    exact congrArg (t :: ·) (ih { q with queue_ := rest } hv rfl)

theorem valid_underscore_false_of_ne_true (q : task_queue α)
    (h : ¬q.valid_ = true) : q.valid_ = false := by
  cases hv : q.valid_
  · rfl
  · exact absurd hv h

theorem dequeue_task_eq (q : task_queue α) (t : α)
    (h : q.dequeue.1 = .task t) :
    q.valid_ = true ∧ ∃ rest, q.queue_ = t :: rest ∧
      q.dequeue.2 = { q with queue_ := rest } := by
  by_cases hp : wait_pred q = true
  · by_cases hv : q.valid_ = true
    · cases hq : q.queue_ with
      | nil =>
        simp [dequeue, hp, hv, hq] at h
      | cons u rest =>
        have hu := dequeue_head q u rest hv hq
        rw [hu] at h
        have hut : u = t := by injection h
        subst hut
        exact ⟨hv, rest, rfl, by rw [hu]⟩
    · rw [dequeue_of_invalid q (valid_underscore_false_of_ne_true q hv)] at h
      cases h
  · simp [dequeue, hp] at h

theorem dequeue_state_cases (q : task_queue α) :
    q.dequeue.2 = q ∨
    ∃ t rest, q.queue_ = t :: rest ∧ q.dequeue.2 = { q with queue_ := rest } := by
  cases hr : q.dequeue.1 with
  | blocked =>
    left
    by_cases hp : wait_pred q = true
    · by_cases hv : q.valid_ = true
      · cases hq : q.queue_ with
        | nil => simp [dequeue, hp, hv, hq]
        | cons u rest => rw [dequeue_head q u rest hv hq] at hr; cases hr
      · rw [dequeue_of_invalid q (valid_underscore_false_of_ne_true q hv)] at hr
        cases hr
    · simp [dequeue, hp]
  | closed =>
    left
    by_cases hp : wait_pred q = true
    · by_cases hv : q.valid_ = true
      · cases hq : q.queue_ with
        | nil => simp [dequeue, hp, hv, hq] at hr
        | cons u rest => rw [dequeue_head q u rest hv hq] at hr; cases hr
      · rw [dequeue_of_invalid q (valid_underscore_false_of_ne_true q hv)]
    · simp [dequeue, hp] at hr
  | task t =>
    right
    obtain ⟨_, rest, hq, hd⟩ := dequeue_task_eq q t hr
    exact ⟨t, rest, hq, hd⟩

theorem dequeued_nil_of_invalid (q : task_queue α) (ops : List (queue_op α))
    (h : q.valid_ = false) : dequeued q ops = [] := by
  induction ops generalizing q with
  | nil => rfl
  | cons op ops ih =>
    rw [dequeued, ih _ (step_valid_underscore_mono q op h), List.append_nil]
    cases op <;> simp [step, enqueue, dequeue_of_invalid q h, clear, invalidate]

theorem step_queue_mem (q : task_queue α) (op : queue_op α) (t : α)
    (h : t ∈ (q.step op).2.queue_) :
    t ∈ q.queue_ ∨ t ∈ ops_enqueued [op] := by
  cases op with
  | enqueue u =>
    simp [step, enqueue] at h
    rcases h with h | h
    · exact Or.inl h
    · right
      simp [ops_enqueued, h]
  | dequeue =>
    left
    rcases dequeue_state_cases q with hd | ⟨u, rest, hq, hd⟩
    · simpa [step, hd] using h
    · rw [hq]
      simp [step, hd] at h
      exact List.mem_cons_of_mem u h
  | clear => simp [step, clear] at h
  | invalidate => exact Or.inl (by simpa [step, invalidate] using h)
  | empty => exact Or.inl (by simpa [step] using h)
  | is_valid => exact Or.inl (by simpa [step] using h)

theorem dequeued_mem (q : task_queue α) (ops : List (queue_op α)) (t : α)
    (h : t ∈ dequeued q ops) : t ∈ q.queue_ ∨ t ∈ ops_enqueued ops := by
  induction ops generalizing q with
  | nil => cases h
  | cons op ops ih =>
    rw [dequeued, List.mem_append] at h
    cases h with
    | inl h0 =>
      left
      cases op with
      | dequeue =>
        cases hr : q.dequeue.1 with
        | task u =>
          simp [step, hr] at h0
          obtain ⟨-, rest, hq, -⟩ := dequeue_task_eq q u hr
          rw [h0, hq]
          exact List.mem_cons_self u rest
        | blocked => simp [step, hr] at h0
        | closed => simp [step, hr] at h0
      | enqueue u => simp [step] at h0
      | clear => simp [step] at h0
      | invalidate => simp [step] at h0
      | empty => simp [step] at h0
      | is_valid => simp [step] at h0
    | inr h1 =>
      rcases ih (q.step op).2 h1 with hmem | hops
      · rcases step_queue_mem q op t hmem with hq | hop
        · exact Or.inl hq
        · right
          cases op <;> simp_all [ops_enqueued]
      · right
        cases op <;> simp [ops_enqueued, hops]

end task_queue

theorem teardown_trace_stops {α : Type} (q : task_queue α) (l : List Nat) :
    teardown_trace q (l.map teardown_event.stop_worker)
      = l.map (fun i => (q, teardown_event.stop_worker i)) := by
  induction l generalizing q with
  | nil => rfl
  | cons i l ih => simp [teardown_trace, teardown_apply, ih]

theorem worker_run_resolves (l : List task_entry) (q : task_queue task_entry)
    (w : worker_obs) (hv : q.valid_ = true) (hq : q.queue_ = l) :
    (worker_run l.length q w).2
      = ⟨w.resolved ++ l.map (fun t => (t.id, t.run)), w.log⟩ := by
  induction l generalizing q w with
  | nil =>
    cases w
    simp [worker_run]
  | cons t rest ih =>
    rw [List.length_cons, worker_run]
    have hd := task_queue.dequeue_head q t rest hv hq
    rw [show worker_iter q w
        = ({ q with queue_ := rest }, ⟨w.resolved ++ [(t.id, t.run)], w.log⟩) by
      simp [worker_iter, hd, run_packaged]]
    rw [ih { q with queue_ := rest } _ hv rfl]
    simp

/-- C1.  For every queue state, `dequeue` blocks exactly until the pending
sequence is non-empty or the queue has been invalidated (`blocked` iff the
wait predicate is false, i.e. the sequence is empty and the queue valid);
on wake, if the queue is invalidated it returns the `Closed` signal
(`return false`) leaving the state unchanged, consuming nothing; otherwise
it removes and returns the head unit of the sequence, leaving the tail. -/
theorem C1_dequeue_blocks_closed_or_pops_head {α : Type} (q : task_queue α) :
    ((q.dequeue.1 = .blocked) ↔ (q.queue_ = [] ∧ q.valid_ = true)) ∧
    (q.valid_ = false → q.dequeue = (.closed, q)) ∧
    (∀ t rest, q.valid_ = true → q.queue_ = t :: rest →
      q.dequeue = (.task t, { q with queue_ := rest })) := by
  refine ⟨?_, ?_, ?_⟩
  · by_cases hv : q.valid_ = true
    · cases hq : q.queue_ with
      | nil =>
        simp [task_queue.dequeue, task_queue.wait_pred, hv, hq]
      | cons t rest =>
        simp [task_queue.dequeue, task_queue.wait_pred, hv, hq]
    · have hv' : q.valid_ = false := by
        cases h : q.valid_
        · rfl
        · exact absurd h hv
      simp [task_queue.dequeue, task_queue.wait_pred, hv']
  · intro h
    exact task_queue.dequeue_of_invalid q h
  · intro t rest hv hq
    simp [task_queue.dequeue, task_queue.wait_pred, hv, hq]

theorem C1_dequeue_blocks_closed_or_pops_head_witness :
    (task_queue.mk true true ([] : List Nat)).dequeue.1 = DequeueResult.blocked ∧
    (task_queue.mk false true [5]).dequeue
      = (DequeueResult.closed, task_queue.mk false true [5]) ∧
    (task_queue.mk true true [7, 8]).dequeue
      = (DequeueResult.task 7, task_queue.mk true true [8]) :=
  ⟨(C1_dequeue_blocks_closed_or_pops_head
      (task_queue.mk true true ([] : List Nat))).1.mpr (by decide),
   (C1_dequeue_blocks_closed_or_pops_head
      (task_queue.mk false true [5])).2.1 (by decide),
   (C1_dequeue_blocks_closed_or_pops_head
      (task_queue.mk true true [7, 8])).2.2 7 [8] (by decide) rfl⟩

/-- C2.  FIFO: enqueuing units `ts` on a valid queue and then performing
successive successful dequeues returns the pending units, the enqueued
ones among them, in exactly enqueue order; and with exactly one consumer
(one worker looping on the queue), the tasks are executed — their futures
fulfilled — in exactly submission order. -/
theorem C2_fifo_order {α : Type} (q : task_queue α) (ts : List α)
    (hv : q.valid_ = true) :
    task_queue.dequeue_n (task_queue.enqueue_all q ts)
        (q.queue_.length + ts.length) = q.queue_ ++ ts ∧
    (∀ (es : List task_entry) (w : worker_obs),
      (worker_run es.length (task_queue.enqueue_all task_queue.init es) w).2
        = ⟨w.resolved ++ es.map (fun t => (t.id, t.run)), w.log⟩) := by
  constructor
  · have hlen : q.queue_.length + ts.length = (q.queue_ ++ ts).length := by
      simp
    rw [hlen]
    exact task_queue.dequeue_n_fifo (q.queue_ ++ ts) _
      (by rw [task_queue.enqueue_all_valid_underscore_eq]; exact hv)
      (task_queue.enqueue_all_queue_eq q ts)
  · intro es w
    have hv0 : (task_queue.enqueue_all (task_queue.init (α := task_entry)) es).valid_ = true := by
      rw [task_queue.enqueue_all_valid_underscore_eq]
      rfl
    have hq0 : (task_queue.enqueue_all (task_queue.init (α := task_entry)) es).queue_ = es := by
      rw [task_queue.enqueue_all_queue_eq]
      rfl
    exact worker_run_resolves es (task_queue.enqueue_all task_queue.init es) w hv0 hq0

theorem C2_fifo_order_witness :
    task_queue.dequeue_n
        (task_queue.enqueue_all (task_queue.mk true true [0]) [1, 2]) 3
      = [0, 1, 2] ∧
    (worker_run 2
        (task_queue.enqueue_all task_queue.init
          [⟨0, Except.ok 4⟩, ⟨1, Except.error "boom"⟩]) ⟨[], []⟩).2
      = ⟨[(0, Except.ok 4), (1, Except.error "boom")], []⟩ :=
  ⟨(C2_fifo_order (task_queue.mk true true [0]) [1, 2] (by decide)).1,
   (C2_fifo_order (task_queue.mk true true ([] : List Nat)) [] (by decide)).2
      [⟨0, Except.ok 4⟩, ⟨1, Except.error "boom"⟩] ⟨[], []⟩⟩

/-- C4.  `invalidate` is idempotent: on every queue state, two calls
produce exactly the same final state as one; `invalidate` is a total
function (no exception) and the repeated `notify_all` changes no state a
caller can observe. -/
theorem C4_invalidate_idempotent {α : Type} (q : task_queue α) :
    q.invalidate.invalidate = q.invalidate :=
  rfl

/-- C7.  Invalidation is irreversible: once `valid_` is `false`, no
sequence of queue operations (`enqueue`, `dequeue`, `clear`,
`invalidate`, `empty`, `is_valid`) ever sets it back to `true`, so
`is_valid` returns `false` in every subsequent state. -/
theorem C7_invalidation_irreversible {α : Type} (q : task_queue α)
    (ops : List (queue_op α)) (h : q.valid_ = false) :
    (task_queue.run q ops).valid_ = false ∧
    (task_queue.run q ops).is_valid = false := by
  have := task_queue.run_valid_underscore_mono q ops h
  exact ⟨this, this⟩

theorem C7_invalidation_irreversible_witness :
    (task_queue.run (task_queue.mk false true [3])
        [.enqueue 4, .dequeue, .clear, .invalidate, .empty, .is_valid]).valid_
      = false ∧
    (task_queue.run (task_queue.mk false true [3])
        [.enqueue 4, .dequeue, .clear, .invalidate, .empty, .is_valid]).is_valid
      = false :=
  C7_invalidation_irreversible (task_queue.mk false true [3])
    [.enqueue 4, .dequeue, .clear, .invalidate, .empty, .is_valid] (by decide)

/-- C5.  `enqueue` never fails: on every queue state, including an
already-invalidated one, it appends the wrapped unit at the tail of the
pending sequence, leaves the validity flag alone, and immediately returns
the handle tied to that unit; when the queue is already invalidated the
enqueue still succeeds structurally, but no subsequent sequence of queue
operations ever dequeues any unit, so the unit is never consumed and its
handle remains permanently unresolved. -/
theorem C5_enqueue_never_fails {α : Type} (q : task_queue α) (t : α) :
    (q.enqueue t).2.queue_ = q.queue_ ++ [t] ∧
    (q.enqueue t).2.valid_ = q.valid_ ∧
    (q.enqueue t).1 = t ∧
    (q.valid_ = false →
      ∀ ops : List (queue_op α), task_queue.dequeued (q.enqueue t).2 ops = []) := by
  refine ⟨rfl, rfl, rfl, ?_⟩
  intro h ops
  exact task_queue.dequeued_nil_of_invalid _ ops h

theorem C5_enqueue_never_fails_witness :
    ((task_queue.mk false true [4]).enqueue 9).2.queue_ = [4, 9] ∧
    task_queue.dequeued ((task_queue.mk false true [4]).enqueue 9).2
        [.dequeue, .dequeue] = [] :=
  ⟨(C5_enqueue_never_fails (task_queue.mk false true [4]) 9).1,
   (C5_enqueue_never_fails (task_queue.mk false true [4]) 9).2.2.2 (by decide)
     [.dequeue, .dequeue]⟩

/-- C6.  `clear` on a queue holding any pending units removes them all
without executing any: afterwards the pending sequence is empty while
both validity members are unchanged, and every unit dequeued (hence
executed) by any later sequence of operations is one enqueued by those
later operations — none of the cleared units is ever consumed, so their
handles never resolve. -/
theorem C6_clear_removes_all_without_executing {α : Type} (q : task_queue α) :
    q.clear.queue_ = [] ∧
    q.clear.valid_ = q.valid_ ∧
    q.clear.valid = q.valid ∧
    (∀ (ops : List (queue_op α)) (t : α),
      t ∈ task_queue.dequeued q.clear ops → t ∈ task_queue.ops_enqueued ops) := by
  refine ⟨rfl, rfl, rfl, ?_⟩
  intro ops t ht
  rcases task_queue.dequeued_mem q.clear ops t ht with hq | hops
  · simp [task_queue.clear] at hq
  · exact hops

theorem C6_clear_removes_all_without_executing_witness :
    (task_queue.mk true true [1, 2, 3]).clear.queue_ = [] ∧
    (9 : Nat) ∈ task_queue.dequeued (task_queue.mk true true [1, 2, 3]).clear
        [.enqueue 9, .dequeue] ∧
    (9 : Nat) ∈ task_queue.ops_enqueued ([.enqueue 9, .dequeue] : List (queue_op Nat)) :=
  ⟨(C6_clear_removes_all_without_executing (task_queue.mk true true [1, 2, 3])).1,
   by decide,
   (C6_clear_removes_all_without_executing (task_queue.mk true true [1, 2, 3])).2.2.2
     [.enqueue 9, .dequeue] 9 (by decide)⟩

/-- C8.  `~task_pool` performs its steps in order: first
`queue_.invalidate()` (the head of the teardown sequence, releasing every
blocked worker), and only then `delete workers_[i]` for each worker —
stop, join and release; at every worker-stopping step of the teardown the
queue is already invalid, never still valid. -/
theorem C8_teardown_invalidates_before_stopping {α : Type} (n : Nat) (q : task_queue α) :
    (pool_teardown n).head? = some teardown_event.invalidate_queue ∧
    (∀ p ∈ teardown_trace q (pool_teardown n),
      (∃ i, p.2 = teardown_event.stop_worker i) → p.1.valid_ = false) := by
  refine ⟨rfl, ?_⟩
  intro p hp hi
  obtain ⟨i, hpe⟩ := hi
  rw [pool_teardown, teardown_trace, teardown_trace_stops] at hp
  rcases List.mem_cons.mp hp with h0 | h1
  · rw [h0] at hpe
    simp at hpe
  · obtain ⟨j, -, hj⟩ := List.mem_map.mp h1
    rw [← hj]
    rfl

theorem C8_teardown_invalidates_before_stopping_witness :
    (pool_teardown 2).head? = some teardown_event.invalidate_queue ∧
    ((task_queue.mk true true [1]).invalidate, teardown_event.stop_worker 0).1.valid_
      = false :=
  ⟨(C8_teardown_invalidates_before_stopping 2 (task_queue.mk true true [1])).1,
   (C8_teardown_invalidates_before_stopping 2 (task_queue.mk true true [1])).2
     ((task_queue.mk true true [1]).invalidate, teardown_event.stop_worker 0)
     (by decide) ⟨0, rfl⟩⟩

/-- C9.  The queue carries two validity members, the raw/wrapped
`valid_` and the separate `std::atomic_bool valid` initialised `true`;
`valid` is vestigial: every operation leaves it unchanged (so from the
constructor it stays `true`), and no operation reads it — replacing it by
any value changes neither any operation's return value nor any other
component of the successor state. -/
theorem C9_vestigial_valid_member {α : Type} (q : task_queue α) (b : Bool)
    (op : queue_op α) :
    (q.step op).2.valid = q.valid ∧
    ((task_queue.set_valid q b).step op).1 = (q.step op).1 ∧
    ((task_queue.set_valid q b).step op).2 = task_queue.set_valid (q.step op).2 b ∧
    (task_queue.init (α := α)).valid = true := by
  cases op with
  | enqueue t =>
    simp [task_queue.step, task_queue.set_valid, task_queue.enqueue, task_queue.init]
  | dequeue =>
    by_cases hv : q.valid_ = true
    · cases hq : q.queue_ with
      | nil =>
        simp [task_queue.step, task_queue.set_valid, task_queue.dequeue,
          task_queue.wait_pred, task_queue.init, hv, hq]
      | cons t rest =>
        simp [task_queue.step, task_queue.set_valid, task_queue.dequeue,
          task_queue.wait_pred, task_queue.init, hv, hq]
    · have hv' := task_queue.valid_underscore_false_of_ne_true q hv
      simp [task_queue.step, task_queue.set_valid, task_queue.dequeue,
        task_queue.wait_pred, task_queue.init, hv']
  | clear =>
    simp [task_queue.step, task_queue.set_valid, task_queue.clear, task_queue.init]
  | invalidate =>
    simp [task_queue.step, task_queue.set_valid, task_queue.invalidate, task_queue.init]
  | empty =>
    simp [task_queue.step, task_queue.set_valid, task_queue.empty, task_queue.init]
  | is_valid =>
    simp [task_queue.step, task_queue.set_valid, task_queue.is_valid, task_queue.init]

/-- C10.  `dequeue` returns the `Closed` signal (`return false`) exactly
when the queue is invalid at the moment the wait predicate is satisfied;
in particular `clear()` on a still-valid queue leaves a blocked `dequeue`
blocked — the waiter re-checks the predicate (empty queue, valid) and
resumes waiting, contrary to the code's own doc comment that `dequeue`
unblocks when `clear` is called. -/
theorem C10_closed_iff_invalid_and_clear_keeps_blocking {α : Type} (q : task_queue α) :
    (q.dequeue.1 = DequeueResult.closed ↔
      (task_queue.wait_pred q = true ∧ q.valid_ = false)) ∧
    (q.valid_ = true → q.clear.dequeue.1 = DequeueResult.blocked) := by
  constructor
  · constructor
    · intro h
      by_cases hv : q.valid_ = true
      · cases hq : q.queue_ with
        | nil => simp [task_queue.dequeue, task_queue.wait_pred, hv, hq] at h
        | cons t rest =>
          rw [task_queue.dequeue_head q t rest hv hq] at h
          cases h
      · have hv' := task_queue.valid_underscore_false_of_ne_true q hv
        exact ⟨task_queue.wait_pred_of_invalid q hv', hv'⟩
    · rintro ⟨-, hv⟩
      rw [task_queue.dequeue_of_invalid q hv]
  · intro hv
    simp [task_queue.clear, task_queue.dequeue, task_queue.wait_pred, hv]

theorem C10_closed_iff_invalid_and_clear_keeps_blocking_witness :
    (task_queue.mk false true [2]).dequeue.1 = DequeueResult.closed ∧
    (task_queue.mk true true [4, 5]).clear.dequeue.1 = DequeueResult.blocked :=
  ⟨(C10_closed_iff_invalid_and_clear_keeps_blocking
      (task_queue.mk false true [2])).1.mpr (by decide),
   (C10_closed_iff_invalid_and_clear_keeps_blocking
      (task_queue.mk true true [4, 5])).2 (by decide)⟩

/-- C3.  Evaluating the worker loop on a failing task followed by a
normal one: the loop does not terminate on the failure, the failure is
captured into the failing task's future (`Except.error "boom"` stored for
id 0), and the subsequent normal task still executes with its future
resolving correctly (`Except.ok 7` stored for id 1) — but the diagnostic
sink log stays empty: the thrown exception is stored in the future's
shared state by `std::packaged_task::operator()` inside `task()`, so it
never reaches the worker's `catch` block and the `LOG_ERROR` report the
claim (and the catch block itself) promises is unreachable. -/
theorem C3_worker_survives_failure_sink_silent :
    worker_run 2
        (task_queue.mk true true [⟨0, Except.error "boom"⟩, ⟨1, Except.ok 7⟩])
        ⟨[], []⟩
      = (task_queue.mk true true [],
         ⟨[(0, Except.error "boom"), (1, Except.ok 7)], []⟩) :=
  rfl
